import Mathlib

/-!
# OfferDesk: verification of the segmentation / routing / re-ranking core

A shallow embedding of the OfferDesk retrieval pipeline
(`src/conversation_splitter.py`, `src/processing/conversation_splitter.py`,
`src/conversation_router.py`, and the spec's `RelevanceReRanker`), with
theorems settling the spec's claims about it.

Text is modelled as `List Char` (the `.data` of a Python `str`); all inputs of
interest are ASCII, so Python's `str.lower` / `str.strip` coincide with
`Char.toLower` / trimming on whitespace characters.
-/

namespace OfferDesk

/-- Text, as a list of characters. -/
abbrev Txt := List Char

/-- Python's `\s` (ASCII): space, tab, newline, carriage return, form feed,
vertical tab.  Also the character class used by `str.strip()` on ASCII text. -/
def wsP (c : Char) : Bool :=
  c = ' ' || c = '\t' || c = '\n' || c = '\r' || c = '\x0b' || c = '\x0c'

/-- Python `str.lower()` (ASCII). -/
def lowerT (t : Txt) : Txt := t.map Char.toLower

/-- Python `str.strip()`: drop whitespace from both ends. -/
def trimT (t : Txt) : Txt :=
  ((t.dropWhile wsP).reverse.dropWhile wsP).reverse

/-- Python `str.split(sep)` for a single-character separator: keeps empty
pieces, splitting an empty string gives one empty piece. -/
def splitOnChar (sep : Char) : Txt → List Txt
  | [] => [[]]
  | c :: r =>
    match splitOnChar sep r with
    | [] => [[c]]
    | h :: tl => if c = sep then [] :: h :: tl else (c :: h) :: tl

/-- Python `str.split()` with no argument: whitespace-run separated words,
empty pieces discarded. -/
def wordsT : Txt → List Txt
  | [] => []
  | c :: r =>
    if wsP c then wordsT r
    else
      match wordsT r with
      | [] => [[c]]
      | h :: tl =>
        match r with
        | [] => [[c]]
        | c2 :: _ => if wsP c2 then [c] :: h :: tl else (c :: h) :: tl

/-- `needle` begins `hay`. -/
def leadsWith : Txt → Txt → Bool
  | [], _ => true
  | _ :: _, [] => false
  | n :: ns, c :: cs => n = c && leadsWith ns cs

/-- Python's `needle in hay` on strings: contiguous-substring test. -/
def containsT (needle hay : Txt) : Bool :=
  match hay with
  | [] => needle.isEmpty
  | _ :: r => leadsWith needle hay || containsT needle r

/-- Case-insensitive literal-pattern step of an `re.IGNORECASE` match: if `s`
starts with `pat` (given lower-case) up to case, return the rest of `s`. -/
def stripCI : Txt → Txt → Option Txt
  | [], s => some s
  | _, [] => none
  | p :: ps, c :: cs => if c.toLower = p then stripCI ps cs else none

theorem stripCI_length {pat s r : Txt} (h : stripCI pat s = some r) :
    r.length + pat.length = s.length := by
  induction pat generalizing s with
  | nil => cases s <;> simp_all [stripCI]
  | cons p ps ih =>
    cases s with
    | nil => simp [stripCI] at h
    | cons c cs =>
      simp only [stripCI] at h
      split at h
      · have := ih h
        simp [List.length_cons]; omega
      · exact absurd h (by simp)

/-! ## ConversationSplitter.extract_conditions

Embeds `ConversationSplitter.extract_conditions` (identical in
`src/conversation_splitter.py` and `src/processing/conversation_splitter.py`):
three independent `re.search` calls with the case-insensitive patterns
`Deal\s+Size\s*:\s*([^\n]+)`, `Stage\s*:\s*([^\n]+)`, `Type\s*:\s*([^\n]+)`.
-/

/-- The capture of the regex tail `\s*([^\n]+)` applied to `r` (greedy with
backtracking): skip the whitespace run greedily; if a character follows, the
capture is the maximal newline-free run from there; if only whitespace
follows, backtracking yields the last non-newline whitespace character of the
run (or failure when every character of `r` is a newline or `r` is empty). -/
def captureValue (r : Txt) : Option Txt :=
  let w := r.takeWhile wsP
  let rest := r.drop w.length
  if rest.isEmpty then
    match (w.filter (fun c => c ≠ '\n')).getLast? with
    | some c => some [c]
    | none => none
  else some (rest.takeWhile (fun c => c ≠ '\n'))

/-- After a matched label, the regex tail `\s*:\s*([^\n]+)`: greedy whitespace,
a literal colon, then the captured value. -/
def captureAfterLabel (r : Txt) : Option Txt :=
  match r.dropWhile wsP with
  | ':' :: r2 => captureValue r2
  | _ => none

/-- Attempt of `Stage\s*:\s*([^\n]+)` (IGNORECASE) at the start of `s`. -/
def matchStageAt (s : Txt) : Option Txt :=
  match stripCI ("stage".data) s with
  | none => none
  | some r0 => captureAfterLabel r0

/-- Attempt of `Type\s*:\s*([^\n]+)` (IGNORECASE) at the start of `s`. -/
def matchTypeAt (s : Txt) : Option Txt :=
  match stripCI ("type".data) s with
  | none => none
  | some r0 => captureAfterLabel r0

/-- Attempt of `Deal\s+Size\s*:\s*([^\n]+)` (IGNORECASE) at the start of `s`:
`\s+` demands at least one whitespace character between the two words. -/
def matchDealAt (s : Txt) : Option Txt :=
  match stripCI ("deal".data) s with
  | none => none
  | some r0 =>
    match r0 with
    | [] => none
    | c :: _ =>
      if wsP c then
        match stripCI ("size".data) (r0.dropWhile wsP) with
        | none => none
        | some r1 => captureAfterLabel r1
      else none

/-- `re.search`: try the pattern at every start position, left to right, and
return the first successful capture. -/
def searchWith (m : Txt → Option Txt) : Txt → Option Txt
  | [] => m []
  | c :: r =>
    match m (c :: r) with
    | some v => some v
    | none => searchWith m r

/-- `ConversationConditions`: the attribute map built by `extract_conditions`;
a `none` field is an omitted key. -/
structure Conditions where
  deal_size : Option Txt
  stage : Option (List Txt)
  type : Option Txt
  deriving DecidableEq, Repr

/-- The empty conditions object (Python `{}`). -/
def emptyConditions : Conditions := ⟨none, none, none⟩

/-- `ConversationSplitter.extract_conditions`. -/
def extract_conditions (t : Txt) : Conditions where
  deal_size := (searchWith matchDealAt t).map trimT
  stage := (searchWith matchStageAt t).map fun v => (splitOnChar ',' v).map trimT
  type := (searchWith matchTypeAt t).map trimT

/-! Definitions following the claim's words (for comparison with the code):
the stage value read off the first "Stage:" *label line* alone. -/

/-- The lines of a text (Python `str.splitlines` for `\n`). -/
def linesOf (t : Txt) : List Txt := splitOnChar '\n' t

/-- Within a single line, find a case-insensitive `Stage` label followed by
optional spaces and a colon, and return the remainder of that line. -/
def stageLabelRemainder : Txt → Option Txt
  | [] => none
  | c :: r =>
    match stripCI ("stage".data) (c :: r) with
    | some r0 =>
      (match r0.dropWhile wsP with
       | ':' :: rest => some rest
       | _ => stageLabelRemainder r)
    | none => stageLabelRemainder r

/-- Following the claim's words: the comma-split, element-wise trimmed
sequence taken from the remainder of the first "Stage:" label line. -/
def stageFromLabelLine (t : Txt) : Option (List Txt) :=
  ((linesOf t).findSome? stageLabelRemainder).map fun v =>
    (splitOnChar ',' v).map trimT

/-! ## ConversationSplitter.split_by_conversations

Embeds the two header regexes and `re.split` scans.  The processing variant
(`src/processing/conversation_splitter.py`) uses
`(?:^|\n)(Conversation\s+(\d+(?:\.\d+)?))\s*\n`; the older variant
(`src/conversation_splitter.py`) uses
`(?:^|\n)(?:#{1,3}\s*)?Conversation\s+(\d+)\s*:?\s*\n`, both IGNORECASE
and MULTILINE.
-/

/-- The regex tail `\s*\n` (greedy with backtracking): consume the whitespace
prefix of `r` up to and including its last newline; fail when that prefix
holds no newline. -/
def tailNL : Txt → Option Txt
  | [] => none
  | c :: r =>
    if wsP c then
      match tailNL r with
      | some rest => some rest
      | none => if c = '\n' then some r else none
    else none

theorem tailNL_length {r rest : Txt} (h : tailNL r = some rest) :
    rest.length < r.length := by
  induction r generalizing rest with
  | nil => simp [tailNL] at h
  | cons c cs ih =>
    simp only [tailNL] at h
    by_cases hw : wsP c
    · rw [if_pos hw] at h
      cases hc : tailNL cs with
      | some rest2 =>
        rw [hc] at h
        cases h
        exact Nat.lt_trans (ih hc) (by simp)
      | none =>
        rw [hc] at h
        by_cases hn : c = '\n'
        · rw [if_pos hn] at h; cases h; simp
        · rw [if_neg hn] at h; cases h
    · rw [if_neg hw] at h; cases h

/-- The regex tail `\s*:?\s*\n` of the older header pattern (greedy with
backtracking): prefer consuming an optional colon after the whitespace run,
then fall back to `\s*\n`. -/
def tailOld (r : Txt) : Option Txt :=
  match r.dropWhile wsP with
  | ':' :: r2 =>
    (match tailNL r2 with
     | some rest => some rest
     | none => tailNL r)
  | _ => tailNL r

theorem dropWhile_wsP_length (r : Txt) : (r.dropWhile wsP).length ≤ r.length := by
  induction r with
  | nil => simp [List.dropWhile]
  | cons c cs ih =>
    rw [List.dropWhile_cons]
    split
    · exact Nat.le_trans ih (Nat.le_succ _)
    · exact Nat.le_refl _

theorem tailOld_length {r rest : Txt} (h : tailOld r = some rest) :
    rest.length < r.length := by
  unfold tailOld at h
  split at h
  next r2 hdw =>
    have h2 : r2.length < r.length := by
      have := dropWhile_wsP_length r
      rw [hdw] at this
      simp only [List.length_cons] at this
      omega
    cases hc : tailNL r2 with
    | some rest2 =>
      rw [hc] at h
      cases h
      exact lt_trans (tailNL_length hc) h2
    | none =>
      rw [hc] at h
      exact tailNL_length h
  next => exact tailNL_length h

/-- The optional `(?:\.\d+)?` of the processing pattern followed by `\s*\n`,
after the leading digit group `d1`: only taken when a dot and at least one
digit follow, and the `\s*\n` tail succeeds after them. -/
def matchDotTail (d1 : Txt) (r2 : Txt) : Option (Txt × Txt) :=
  match r2 with
  | '.' :: r3 =>
    let d2 := r3.takeWhile Char.isDigit
    if d2.isEmpty then none
    else (tailNL (r3.drop d2.length)).map fun rest => (d1 ++ '.' :: d2, rest)
  | _ => none

theorem matchDotTail_length {d1 r2 g2 rest : Txt}
    (h : matchDotTail d1 r2 = some (g2, rest)) : rest.length < r2.length := by
  unfold matchDotTail at h
  split at h
  next r3 =>
    simp only at h
    split at h
    · cases h
    · cases htl : tailNL (r3.drop (r3.takeWhile Char.isDigit).length) with
      | none => rw [htl] at h; cases h
      | some rst =>
        rw [htl] at h
        cases h
        have h1 := tailNL_length htl
        have h2 : (r3.drop (r3.takeWhile Char.isDigit).length).length ≤ r3.length := by
          rw [List.length_drop]; omega
        simp only [List.length_cons]
        omega
  next => cases h

/-- `\d+(?:\.\d+)?\s*\n` of the processing pattern: greedy digits, the
optional dotted part preferred, falling back to `\s*\n` directly after the
digits.  Returns (group 2 id text, rest). -/
def convNumTailProc (r1 : Txt) : Option (Txt × Txt) :=
  let d1 := r1.takeWhile Char.isDigit
  if d1.isEmpty then none
  else
    match matchDotTail d1 (r1.drop d1.length) with
    | some res => some res
    | none => (tailNL (r1.drop d1.length)).map fun rest => (d1, rest)

theorem convNumTailProc_length {r1 g2 rest : Txt}
    (h : convNumTailProc r1 = some (g2, rest)) : rest.length < r1.length := by
  unfold convNumTailProc at h
  simp only at h
  split at h
  · cases h
  · have hdl : (r1.drop (r1.takeWhile Char.isDigit).length).length ≤ r1.length := by
      rw [List.length_drop]; omega
    split at h
    next res hdot =>
      cases h
      have := matchDotTail_length hdot
      omega
    next =>
      cases htl : tailNL (r1.drop (r1.takeWhile Char.isDigit).length) with
      | none => rw [htl] at h; cases h
      | some rst =>
        rw [htl] at h
        cases h
        have := tailNL_length htl
        omega

/-- `\d+\s*:?\s*\n` of the older pattern.  Returns (group 1 id text, rest). -/
def convNumTailOld (r1 : Txt) : Option (Txt × Txt) :=
  let d1 := r1.takeWhile Char.isDigit
  if d1.isEmpty then none
  else (tailOld (r1.drop d1.length)).map fun rest => (d1, rest)

theorem convNumTailOld_length {r1 g rest : Txt}
    (h : convNumTailOld r1 = some (g, rest)) : rest.length < r1.length := by
  unfold convNumTailOld at h
  simp only at h
  split at h
  · cases h
  · have hdl : (r1.drop (r1.takeWhile Char.isDigit).length).length ≤ r1.length := by
      rw [List.length_drop]; omega
    cases htl : tailOld (r1.drop (r1.takeWhile Char.isDigit).length) with
    | none => rw [htl] at h; cases h
    | some rst =>
      rw [htl] at h
      cases h
      have := tailOld_length htl
      omega

/-- The processing header pattern, from just after `(?:^|\n)`:
`(Conversation\s+(\d+(?:\.\d+)?))\s*\n` (IGNORECASE).  On success, returns
(group 1 original text, group 2 id text, rest of the input). -/
def matchConvProc (s : Txt) : Option (Txt × Txt × Txt) :=
  match stripCI ("conversation".data) s with
  | none => none
  | some r0 =>
    if (r0.takeWhile wsP).isEmpty then none
    else
      match convNumTailProc (r0.drop (r0.takeWhile wsP).length) with
      | none => none
      | some (g2, rest) =>
        some (s.take (12 + (r0.takeWhile wsP).length + g2.length), g2, rest)

theorem matchConvProc_length {s g1 g2 rest : Txt}
    (h : matchConvProc s = some (g1, g2, rest)) : rest.length < s.length := by
  unfold matchConvProc at h
  split at h
  · cases h
  next r0 hs =>
    have hr0 : r0.length + 12 = s.length := stripCI_length hs
    split at h
    · cases h
    · split at h
      · cases h
      next g2' rest' hc =>
        cases h
        have h1 := convNumTailProc_length hc
        have h2 : (r0.drop (r0.takeWhile wsP).length).length ≤ r0.length := by
          rw [List.length_drop]; omega
        omega

/-- The optional markdown prefix `(?:#{1,3}\s*)?` of the older pattern: only a
run of one to three hash marks can be consumed (a longer run, or any other
text, leaves the position unchanged, where the literal `Conversation` will
then fail to match anyway). -/
def oldBody (s : Txt) : Txt :=
  let hashes := s.takeWhile (fun c => c = '#')
  if hashes.isEmpty || 3 < hashes.length then s
  else (s.drop hashes.length).dropWhile wsP

theorem oldBody_length (s : Txt) : (oldBody s).length ≤ s.length := by
  unfold oldBody
  simp only
  split
  · exact Nat.le_refl _
  · exact Nat.le_trans (dropWhile_wsP_length _) (by rw [List.length_drop]; omega)

/-- The older header pattern, from just after `(?:^|\n)`:
`(?:#{1,3}\s*)?Conversation\s+(\d+)\s*:?\s*\n` (IGNORECASE).  Returns
(group 1 id text, rest). -/
def matchConvOld (s : Txt) : Option (Txt × Txt) :=
  match stripCI ("conversation".data) (oldBody s) with
  | none => none
  | some r0 =>
    if (r0.takeWhile wsP).isEmpty then none
    else convNumTailOld (r0.drop (r0.takeWhile wsP).length)

theorem matchConvOld_length {s g rest : Txt}
    (h : matchConvOld s = some (g, rest)) : rest.length < s.length := by
  unfold matchConvOld at h
  split at h
  · cases h
  next r0 hs =>
    have hr0 : r0.length + 12 = (oldBody s).length := stripCI_length hs
    have hb := oldBody_length s
    split at h
    · cases h
    · have h1 := convNumTailOld_length h
      have h2 : (r0.drop (r0.takeWhile wsP).length).length ≤ r0.length := by
        rw [List.length_drop]; omega
      omega

/-- `re.split` scan for the processing pattern, structurally recursive on a
fuel bound (one unit per character consumed, so `s.length + 1` always
suffices; the fuel-exhausted base case is unreachable then).  `ls` records
whether the current position is a MULTILINE line start (position 0 or just
after a newline): the `^` alternative is then tried zero-width; otherwise
(and also when `^` fails) a literal newline at the position may begin the
match.  The match always ends just past a newline, so scanning resumes at a
line start.  `acc` is the current inter-match segment, reversed. -/
def scanProcF : Nat → Txt → Bool → Txt → List Txt
  | 0, s, _, acc => [acc.reverse ++ s]
  | fuel + 1, s, ls, acc =>
    match (if ls then matchConvProc s else none) with
    | some r => acc.reverse :: r.1 :: r.2.1 :: scanProcF fuel r.2.2 true []
    | none =>
      match s with
      | [] => [acc.reverse]
      | c :: rest =>
        match (if c = '\n' then matchConvProc rest else none) with
        | some r => acc.reverse :: r.1 :: r.2.1 :: scanProcF fuel r.2.2 true []
        | none => scanProcF fuel rest (c = '\n') (c :: acc)

/-- `re.split` scan for the older pattern (single capture group). -/
def scanOldF : Nat → Txt → Bool → Txt → List Txt
  | 0, s, _, acc => [acc.reverse ++ s]
  | fuel + 1, s, ls, acc =>
    match (if ls then matchConvOld s else none) with
    | some r => acc.reverse :: r.1 :: scanOldF fuel r.2 true []
    | none =>
      match s with
      | [] => [acc.reverse]
      | c :: rest =>
        match (if c = '\n' then matchConvOld rest else none) with
        | some r => acc.reverse :: r.1 :: scanOldF fuel r.2 true []
        | none => scanOldF fuel rest (c = '\n') (c :: acc)

/-- `re.split(conversation_pattern, text, flags=re.IGNORECASE | re.MULTILINE)`
of the processing variant: `[intro, header_1, id_1, content_1, ...]`. -/
def reSplitProc (t : Txt) : List Txt := scanProcF (t.length + 1) t true []

/-- `re.split` of the older variant: `[intro, id_1, content_1, ...]`. -/
def reSplitOld (t : Txt) : List Txt := scanOldF (t.length + 1) t true []

/-- Modelled from the spec: the bounded-size chunker with overlap that both
splitter variants delegate to the external `RecursiveCharacterTextSplitter`
collaborator (spec section 4.3 step 3; section 6 constrains the
configuration to `0 < chunk_size` and `chunk_overlap < chunk_size`).  A text
no longer than `size` is a single chunk; otherwise successive chunks start
`size - overlap` characters apart so that consecutive chunks of a span share
`overlap` characters of trailing/leading context.  A degenerate
configuration (`size ≤ overlap`, excluded by the spec) is left unchunked. -/
def chunkTextF : Nat → Nat → Nat → Txt → List Txt
  | 0, _, _, s => [s]
  | fuel + 1, size, overlap, s =>
    if s.length ≤ size || size ≤ overlap then [s]
    else s.take size :: chunkTextF fuel size overlap (s.drop (size - overlap))

/-- The chunker proper: each recursion step shortens the text by at least one
character in a valid configuration, so `s.length` units of fuel suffice. -/
def chunkText (size overlap : Nat) (s : Txt) : List Txt :=
  chunkTextF s.length size overlap s

theorem chunkTextF_ne_nil (fuel size overlap : Nat) (s : Txt) :
    chunkTextF fuel size overlap s ≠ [] := by
  cases fuel with
  | zero => simp [chunkTextF]
  | succ n =>
    unfold chunkTextF
    split <;> simp

theorem chunkText_ne_nil (size overlap : Nat) (s : Txt) :
    chunkText size overlap s ≠ [] := chunkTextF_ne_nil _ _ _ _

/-- Undo the overlap duplication: concatenate chunks keeping only the first
`step = size - overlap` characters of every chunk but the last. -/
def reconOverlap (step : Nat) : List Txt → Txt
  | [] => []
  | [c] => c
  | c :: c2 :: rest => c.take step ++ reconOverlap step (c2 :: rest)

theorem reconOverlap_chunkTextF (size overlap : Nat) (h : overlap < size) :
    ∀ fuel (s : Txt),
      reconOverlap (size - overlap) (chunkTextF fuel size overlap s) = s := by
  intro fuel
  induction fuel with
  | zero => intro s; rfl
  | succ n ih =>
    intro s
    unfold chunkTextF
    split
    · rfl
    next hcond =>
      rw [Bool.or_eq_true, decide_eq_true_eq, decide_eq_true_eq] at hcond
      push_neg at hcond
      have ih2 := ih (s.drop (size - overlap))
      cases hc : chunkTextF n size overlap (s.drop (size - overlap)) with
      | nil => exact absurd hc (chunkTextF_ne_nil _ _ _ _)
      | cons c2 rest =>
        simp only [hc] at ih2 ⊢
        show (s.take size).take (size - overlap) ++ reconOverlap (size - overlap) (c2 :: rest) = s
        rw [ih2, List.take_take, min_eq_left (by omega : size - overlap ≤ size),
          List.take_append_drop]

/-- Overlap-removal concatenation of the emitted chunks reconstructs the
chunked text exactly. -/
theorem reconOverlap_chunkText (size overlap : Nat) (s : Txt)
    (h : overlap < size) :
    reconOverlap (size - overlap) (chunkText size overlap s) = s :=
  reconOverlap_chunkTextF size overlap h s.length s

/-- A chunk, as emitted by `_create_chunks`: content plus metadata
(`source`, 0-based `chunk` index within its span, fixed
`type="conversation_section"`, optional `conversation_id`, and — processing
variant only — optional `conversation_header`). -/
structure Document where
  content : Txt
  source : Txt
  chunk : Nat
  conversation_id : Option Txt
  conversation_header : Option Txt
  deriving DecidableEq, Repr

/-- Number a span's chunks from `i` and attach the metadata. -/
def numberFrom (src : Txt) (cid hdr : Option Txt) (i : Nat) : List Txt → List Document
  | [] => []
  | c :: rest => ⟨c, src, i, cid, hdr⟩ :: numberFrom src cid hdr (i + 1) rest

/-- `ConversationSplitter._create_chunks` (processing variant; the older
variant always passes no header), at the default configuration
`chunk_size=1000`, `chunk_overlap=200`. -/
def createDocs (content src : Txt) (cid hdr : Option Txt) : List Document :=
  numberFrom src cid hdr 0 (chunkText 1000 200 content)

/-- The triple loop of the processing `split_by_conversations`: walk the
split parts after the intro in steps of three
(header, id, content), skipping spans whose stripped content is blank.
Note that the intro part is never consulted. -/
def procLoop (src : Txt) : List Txt → List Document
  | h :: i :: c :: rest =>
    (if (trimT c).isEmpty then []
     else createDocs (trimT c) src (some (trimT i)) (some (trimT h))) ++ procLoop src rest
  | _ => []

/-- `ConversationSplitter.split_by_conversations` of
`src/processing/conversation_splitter.py`. -/
def procSplit (t src : Txt) : List Document :=
  procLoop src ((reSplitProc t).drop 1)

/-- The pair loop of the older `split_by_conversations`: walk the split
parts after the intro in steps of two (id, content). -/
def oldLoop (src : Txt) : List Txt → List Document
  | i :: c :: rest =>
    (if (trimT c).isEmpty then []
     else createDocs (trimT c) src (some (trimT i)) none) ++ oldLoop src rest
  | _ => []

/-- `ConversationSplitter.split_by_conversations` of
`src/conversation_splitter.py`: unlike the processing variant, a non-blank
part before the first header is emitted (unstripped) as intro chunks with no
conversation id. -/
def oldSplit (t src : Txt) : List Document :=
  (if (trimT ((reSplitOld t).headD [])).isEmpty then []
   else createDocs ((reSplitOld t).headD []) src none none) ++
    oldLoop src ((reSplitOld t).drop 1)

/-! ## ConversationRouter (`src/conversation_router.py`)

`_extract_keywords` is defined twice in the class body (lines 55-74, the
curated vocabulary; lines 153-169, stopword-filtered frequency ranking).
Python binds the later definition, so every call site — including
`register_conversation_from_document` — uses the frequency version; the
curated version is dead code.  Both are embedded below.
-/

/-- A conversation descriptor (the `conv_info` dict). -/
structure Conv where
  id : Txt
  name : Txt
  conditions : Conditions
  keywords : List Txt
  deriving DecidableEq, Repr

/-- Association-list lookup, keyed like a Python dict. -/
def lookupA {β : Type} (k : Txt) : List (Txt × β) → Option β
  | [] => none
  | (k2, v) :: rest => if k2 = k then some v else lookupA k rest

/-- Python `d[k] = v`: replace in place when the key exists (keeping its
position), append otherwise. -/
def dictInsertA {β : Type} (d : List (Txt × β)) (k : Txt) (v : β) : List (Txt × β) :=
  if (lookupA k d).isSome then d.map fun p => if p.1 = k then (k, v) else p
  else d ++ [(k, v)]

/-- The curated vocabulary of the first (shadowed) `_extract_keywords`. -/
def keywordPatterns : List Txt :=
  ["small".data, "large".data, "medium".data, "discovery".data,
   "qualification".data, "final".data, "closing".data, "negotiation".data,
   "competitive".data, "displacement".data, "renewal".data, "upsell".data,
   "technical".data, "integration".data, "api".data, "price".data,
   "pricing".data, "cost".data, "budget".data, "discount".data,
   "objection".data, "demo".data, "proposal".data, "evaluation".data,
   "€1k".data, "€2k".data, "€5k".data, "1k".data, "2k".data, "5k".data,
   "early".data, "stage".data]

/-- The first (curated-vocabulary) `_extract_keywords` definition, lines
55-74: the vocabulary terms present in the lower-cased text, in vocabulary
order, capped at 10.  Dead code in Python — shadowed by the later
definition. -/
def extractKeywordsCurated (text : Txt) : List Txt :=
  (keywordPatterns.filter fun k => containsT k (lowerT text)).take 10

/-- The stopword set of the frequency `_extract_keywords`. -/
def stopwords : List Txt :=
  ["the".data, "is".data, "at".data, "which".data, "on".data, "a".data,
   "an".data, "as".data, "are".data, "was".data, "were".data, "been".data,
   "be".data, "have".data, "has".data, "had".data, "do".data, "does".data,
   "did".data, "will".data, "would".data, "should".data, "could".data,
   "may".data, "might".data, "can".data, "to".data, "of".data, "in".data,
   "for".data, "with".data, "from".data, "by".data, "about".data,
   "this".data, "that".data, "these".data, "those".data, "you".data,
   "your".data, "we".data, "our".data, "they".data, "their".data,
   "it".data, "its".data]

/-- Lower-case ASCII letter. -/
def isLowerAlpha (c : Char) : Bool := 'a' ≤ c && c ≤ 'z'

/-- A regex word character (`\w`, ASCII). -/
def isWordChar (c : Char) : Bool := c.isAlpha || c.isDigit || c = '_'

/-- Character-by-character scan behind `re.findall(r'\b[a-z]{3,}\b', t)`.
`cur` is `some (run, leftOk)` while inside a lower-case-letter run (`run`
reversed, `leftOk` recording whether the character before the run was absent
or not a word character), `none` otherwise; `prevW` tells whether the
previous character was a word character (consulted only outside a run).  A
run is emitted when it ends at a non-word character or the end of the text,
has an admissible left neighbour, and is at least 3 letters long. -/
def wordRunsGo (cur : Option (Txt × Bool)) (prevW : Bool) : Txt → List Txt
  | [] =>
    match cur with
    | some (run, lok) => if lok && 3 ≤ run.length then [run.reverse] else []
    | none => []
  | c :: r =>
    if isLowerAlpha c then
      match cur with
      | some (run, lok) => wordRunsGo (some (c :: run, lok)) false r
      | none => wordRunsGo (some ([c], !prevW)) false r
    else
      match cur with
      | some (run, lok) =>
        (if lok && !isWordChar c && 3 ≤ run.length then [run.reverse] else []) ++
          wordRunsGo none (isWordChar c) r
      | none => wordRunsGo none (isWordChar c) r

/-- `re.findall(r'\b[a-z]{3,}\b', t)`: the maximal lower-case-letter runs of
length at least 3 both of whose neighbours (when present) are not word
characters. -/
def wordRuns (s : Txt) : List Txt := wordRunsGo none false s

/-- Occurrence count of `w` in `ws`. -/
def countOcc (w : Txt) (ws : List Txt) : Nat := (ws.filter fun x => x = w).length

/-- Distinct values of the input not among `seen`, in first-occurrence
order. -/
def dedupFirstAux (seen : List Txt) : List Txt → List Txt
  | [] => []
  | w :: r =>
    if w ∈ seen then dedupFirstAux seen r
    else w :: dedupFirstAux (w :: seen) r

/-- Distinct values in first-occurrence order (a `Counter`'s key order). -/
def dedupFirst (l : List Txt) : List Txt := dedupFirstAux [] l

/-- `Counter(ws).most_common()`: distinct values by descending count, equal
counts in first-occurrence order (CPython's `sorted` is stable). -/
def mostCommon (ws : List Txt) : List Txt :=
  let keys := dedupFirst ws
  let maxc := (keys.map fun k => countOcc k ws).foldr max 0
  ((List.range (maxc + 1)).reverse).flatMap fun cnt =>
    keys.filter fun k => countOcc k ws = cnt

/-- The second (frequency) `_extract_keywords` definition, lines 153-169 —
the one Python actually binds: lower-case, tokenize `\b[a-z]{3,}\b`, drop
stopwords, rank by descending frequency (`most_common(20)`), cap at 15. -/
def extractKeywordsFreq (text : Txt) : List Txt :=
  ((mostCommon ((wordRuns (lowerT text)).filter
    fun w => !stopwords.contains w)).take 20).take 15

/-- `<\s*€?\$?1k` at the start of `s`. -/
def matchLt1kAt (s : Txt) : Bool :=
  match s with
  | '<' :: r =>
    let r1 := r.dropWhile wsP
    let r2 := match r1 with | '€' :: x => x | _ => r1
    let r3 := match r2 with | '$' :: x => x | _ => r2
    leadsWith ("1k".data) r3
  | _ => false

/-- `~\s*€?\$?2k` at the start of `s`. -/
def match2kAt (s : Txt) : Bool :=
  match s with
  | '~' :: r =>
    let r1 := r.dropWhile wsP
    let r2 := match r1 with | '€' :: x => x | _ => r1
    let r3 := match r2 with | '$' :: x => x | _ => r2
    leadsWith ("2k".data) r3
  | _ => false

/-- `>\s*€?\$?5k` at the start of `s`. -/
def match5kAt (s : Txt) : Bool :=
  match s with
  | '>' :: r =>
    let r1 := r.dropWhile wsP
    let r2 := match r1 with | '€' :: x => x | _ => r1
    let r3 := match r2 with | '$' :: x => x | _ => r2
    leadsWith ("5k".data) r3
  | _ => false

/-- `under.*1000` at the start of `s`: the literal `under`, then `1000`
further along the same line (`.` does not cross newlines). -/
def matchUnderAt (s : Txt) : Bool :=
  leadsWith ("under".data) s &&
    containsT ("1000".data) ((s.drop 5).takeWhile fun c => c ≠ '\n')

/-- Does `p` hold at some start position of `s`? (`re.search` truthiness.) -/
def anyPos (p : Txt → Bool) : Txt → Bool
  | [] => p []
  | c :: r => p (c :: r) || anyPos p r

/-- `ConversationRouter._extract_conditions_from_text`: regex-driven
deal-size band and stage keyword detection over free text.  The text it
receives is already lower-cased by `auto_detect_from_documents`; the
patterns are mirrored over the lower-cased input as IGNORECASE demands. -/
def conditionsFromText (text : Txt) : Conditions :=
  let t := lowerT text
  let deal :=
    if anyPos matchLt1kAt t || containsT ("small".data) t || anyPos matchUnderAt t then
      some ("< €1k".data)
    else if anyPos match2kAt t || containsT ("2000".data) t || containsT ("medium".data) t then
      some ("~€2k".data)
    else if anyPos match5kAt t || containsT ("5000".data) t || containsT ("large".data) t
        || containsT ("enterprise".data) t then
      some ("> €5k".data)
    else none
  let stages :=
    (if containsT ("discovery".data) t || containsT ("qualification".data) t then
      [("discovery".data)] else []) ++
    (if containsT ("final".data) t || containsT ("closing".data) t
        || containsT ("negotiation".data) t then [("final".data)] else []) ++
    (if containsT ("proposal".data) t || containsT ("demo".data) t
        || containsT ("evaluation".data) t then [("proposal".data)] else []) ++
    (if containsT ("renewal".data) t || containsT ("upsell".data) t then
      [("renewal".data)] else [])
  { deal_size := deal
    stage := if stages.isEmpty then none else some stages
    type := none }

/-- The router's mutable state: the catalog list `self.conversations` and
the auto-registration dict `self.detected_conversations`. -/
structure RouterState where
  conversations : List Conv
  detected : List (Txt × Conv)
  deriving DecidableEq, Repr

/-- `f"Conversation {id}"`, suffixed with the extracted type when that is a
truthy (non-empty) string. -/
def convName (cid : Txt) (conds : Conditions) : Txt :=
  ("Conversation ".data) ++ cid ++
    (match conds.type with
     | some t => if t.isEmpty then [] else (" - ".data) ++ t
     | none => [])

/-- `ConversationRouter.register_conversation_from_document`.  The keyword
list comes from the frequency `_extract_keywords` — the definition Python
binds — applied to the first 500 characters; conditions come from
`ConversationSplitter.extract_conditions` on the first 1000. -/
def register_conversation_from_document (st : RouterState) (cid sample : Txt) :
    RouterState :=
  if (lookupA cid st.detected).isSome then st
  else
    let conds := extract_conditions (sample.take 1000)
    let info : Conv :=
      ⟨cid, convName cid conds, conds, extractKeywordsFreq (sample.take 500)⟩
    { conversations :=
        if st.conversations.any fun c => c.id = cid then st.conversations
        else st.conversations ++ [info]
      detected := dictInsertA st.detected cid info }

/-- A loaded document as `auto_detect_from_documents` sees it: the
`conversation_id` metadata entry and the page content. -/
structure InDoc where
  conversation_id : Option Txt
  page_content : Txt
  deriving DecidableEq, Repr

/-- `doc.metadata.get('conversation_id')` followed by the truthiness test
`if conv_id:`. -/
def docConvId (d : InDoc) : Option Txt :=
  match d.conversation_id with
  | some i => if i.isEmpty then none else some i
  | none => none

/-- The distinct conversation ids found in the documents.  Python collects
them in a `set`, whose iteration order is unspecified; first-occurrence
order is this model's canonical choice of that order. -/
def detectedIds (docs : List InDoc) : List Txt :=
  dedupFirst (docs.filterMap docConvId)

/-- `conv_contents[cid]`: the 500-character content prefixes of the
documents carrying `cid`, in document order. -/
def contentsFor (docs : List InDoc) (cid : Txt) : List Txt :=
  (docs.filter fun d => docConvId d = some cid).map fun d => d.page_content.take 500

/-- Python `str.isdigit` for ASCII: non-empty and all digits. -/
def isDigitStr (t : Txt) : Bool := !t.isEmpty && t.all Char.isDigit

/-- `int(x)` on a digit string. -/
def natOf (t : Txt) : Nat := t.foldl (fun n c => n * 10 + (c.toNat - 48)) 0

/-- The sort key `int(x) if x.isdigit() else 0` of
`auto_detect_from_documents`. -/
def sortKeyId (t : Txt) : Nat := if isDigitStr t then natOf t else 0

/-- Comparison by the auto-detection sort key. -/
def idKeyLe (a b : Txt) : Prop := sortKeyId a ≤ sortKeyId b

instance : DecidableRel idKeyLe := fun a b => Nat.decLe _ _

instance : IsTotal Txt idKeyLe := ⟨fun a b => Nat.le_total _ _⟩

instance : IsTrans Txt idKeyLe := ⟨fun _ _ _ => Nat.le_trans⟩

/-- `" ".join(pieces)`. -/
def joinSpace : List Txt → Txt
  | [] => []
  | [x] => x
  | x :: y :: r => x ++ ' ' :: joinSpace (y :: r)

/-- The lower-cased sample `" ".join(conv_contents[conv_id][:2]).lower()`. -/
def sampleFor (docs : List InDoc) (cid : Txt) : Txt :=
  lowerT (joinSpace ((contentsFor docs cid).take 2))

/-- The descriptor `auto_detect_from_documents` builds for one id. -/
def mkDetectedConv (docs : List InDoc) (cid : Txt) : Conv :=
  ⟨cid, ("Conversation ".data) ++ cid,
    conditionsFromText (sampleFor docs cid),
    extractKeywordsFreq (sampleFor docs cid)⟩

/-- `ConversationRouter.auto_detect_from_documents`: with no detected ids the
state is untouched; otherwise the catalog list is replaced wholesale by one
descriptor per distinct id, stably sorted by `int(id) if id.isdigit() else
0` ascending. -/
def auto_detect_from_documents (st : RouterState) (docs : List InDoc) :
    RouterState :=
  if (detectedIds docs).isEmpty then st
  else
    { st with
        conversations :=
          ((detectedIds docs).insertionSort idKeyLe).map (mkDetectedConv docs) }

/-- One descriptor's keyword-match score against a query:
`keyword.lower() in query_lower`, counted. -/
def scoreOf (q : Txt) (c : Conv) : Nat :=
  (c.keywords.filter fun k => containsT (lowerT k) (lowerT q)).length

/-- The `scores` dict of `_keyword_route`: descriptors in catalog order,
entered under their id when their score is positive. -/
def buildScoresAux (q : Txt) (acc : List (Txt × Nat)) : List Conv → List (Txt × Nat)
  | [] => acc
  | c :: rest =>
    buildScoresAux q
      (if 0 < scoreOf q c then dictInsertA acc c.id (scoreOf q c) else acc) rest

/-- Python `max(items, key=value)` over dict items: the first entry carrying
the maximal value (`max` replaces its candidate only on strict increase). -/
def maxKeyFirst : List (Txt × Nat) → Option (Txt × Nat)
  | [] => none
  | p :: rest =>
    match maxKeyFirst rest with
    | none => some p
    | some q2 => if p.2 < q2.2 then some q2 else some p

/-- `ConversationRouter._keyword_route`. -/
def keywordRoute (convs : List Conv) (q : Txt) : Option Txt :=
  (maxKeyFirst (buildScoresAux q [] convs)).map fun p => p.1

/-- `ConversationRouter._ai_route`, with the external LLM call's outcome as
a parameter: `none` models the call raising, `some content` the returned
text.  On a raise, or an id not present in the catalog, it falls back to
`_keyword_route`; the (trimmed, lower-cased) literal `none` clears the
filter. -/
def aiRoute (convs : List Conv) (resp : Option Txt) (q : Txt) : Option Txt :=
  match resp with
  | none => keywordRoute convs q
  | some content =>
    let cid := lowerT (trimT content)
    if cid = ("none".data) then none
    else if convs.any fun c => c.id = cid then some cid
    else keywordRoute convs q

/-- `ConversationRouter.route_query`: empty catalog short-circuits to no
filter; otherwise AI routing runs only when requested and an LLM client
exists. -/
def route_query (st : RouterState) (useAi hasLlm : Bool) (resp : Option Txt)
    (q : Txt) : Option Txt :=
  if st.conversations.isEmpty then none
  else if useAi && hasLlm then aiRoute st.conversations resp q
  else keywordRoute st.conversations q

/-! ## RelevanceReRanker

Modelled from the spec: the re-ranking component of spec section 4.6 is not
present under `src/` — the checked-in `RAGAgent.query`
(`src/core/rag_agent.py` lines 138-217) merely truncates the externally
retrieved candidate list, and only the debug tooling echoes the scoring
rules.  The tiered per-candidate score below follows the spec's tier
descriptions; the curated phrase lists and weights are corpus-derived
configuration data (spec section 9 flags the literal phrases as
corpus-specific), chosen so that tier 2's per-hit weight dominates every
other tier as the spec demands.
-/

/-- Modelled from the spec: tier 2's curated high-specificity multi-word
phrase set (deal-characterization vocabulary). -/
def primaryKeywords : List Txt :=
  ["3-year".data, "4th year".data, "cpi".data, "commitment approved".data,
   "linking renewal".data, "fixed percentage".data]

/-- Modelled from the spec: tier 4's broader contract/pricing vocabulary. -/
def secondaryKeywords : List Txt :=
  ["renewal".data, "clause".data, "price".data, "pricing".data,
   "discount".data, "contract".data, "increase".data, "commitment".data]

/-- Modelled from the spec: tier 8's rare-combination rules, larger sets
scoring higher than their subsets; fully-satisfied rules stack. -/
def comboRules : List (List Txt × Nat) :=
  [(["linking renewal".data, "cpi".data], 30), (["linking renewal".data], 10)]

/-- Tier 2's per-hit weight, larger than every other tier's. -/
def primaryWeight : Nat := 100

/-- The prefix of `hay` before the first occurrence of `needle` (all of
`hay` when absent). -/
def beforeFirst (needle : Txt) (hay : Txt) : Txt :=
  match hay with
  | [] => []
  | c :: r => if leadsWith needle (c :: r) then [] else c :: beforeFirst needle r

/-- The suffix of `hay` after the first occurrence of `needle` (empty when
absent). -/
def afterFirst (needle : Txt) (hay : Txt) : Txt :=
  match hay with
  | [] => []
  | c :: r => if leadsWith needle (c :: r) then (c :: r).drop needle.length
              else afterFirst needle r

/-- Does the chunk carry a Deal-Context section? -/
def hasDealContext (content : Txt) : Bool :=
  containsT ("deal context:".data) (lowerT content)

/-- Does the chunk carry an Outcome marker? -/
def hasOutcomeMarker (content : Txt) : Bool :=
  containsT ("outcome:".data) (lowerT content)

/-- Modelled from the spec (tier 1, deal-context isolation): with a
`deal context:` marker, the scoring surface is the lower-cased text up to
but excluding the first `outcome:` marker; otherwise it is empty. -/
def scoringSurface (content : Txt) : Txt :=
  if hasDealContext content then beforeFirst ("outcome:".data) (lowerT content)
  else []

/-- The lower-cased text after the first `outcome:` marker. -/
def outcomePart (content : Txt) : Txt :=
  afterFirst ("outcome:".data) (lowerT content)

/-- The lower-cased query tokens. -/
def queryTokens (q : Txt) : List Txt := wordsT (lowerT q)

/-- All contiguous 3-word windows of a token list, space-joined. -/
def windows3From : List Txt → List Txt
  | a :: b :: c :: rest => joinSpace [a, b, c] :: windows3From (b :: c :: rest)
  | _ => []

/-- The contiguous 3-word windows of the lower-cased query. -/
def windows3 (q : Txt) : List Txt := windows3From (queryTokens q)

/-- How many of the given set members occur in the surface. -/
def countPresent (pats : List Txt) (surface : Txt) : Nat :=
  (pats.filter fun p => containsT p surface).length

/-- Modelled from the spec: the tiered per-candidate relevance score of spec
section 4.6 — primary-keyword hits dominating, phrase-overlap /
secondary-keyword / outcome tiers only when tier 2 scored zero, term
overlap only below a strong primary hit, a cross-section bonus, and stacking
rare-combination bonuses. -/
def tierScore (q content : Txt) : Nat :=
  let surface := scoringSurface content
  let t2 := primaryWeight * countPresent primaryKeywords surface
  let t3 :=
    if t2 = 0 then 40 * ((windows3 q).filter fun w => containsT w surface).length
    else 0
  let t4 := if t2 = 0 then 5 * countPresent secondaryKeywords surface else 0
  let t5 :=
    if t2 < primaryWeight then
      2 * ((queryTokens q).filter fun w => 4 < w.length && containsT w surface).length
    else 0
  let t6 :=
    if t2 = 0 && hasOutcomeMarker content then
      ((queryTokens q).filter fun w =>
        3 < w.length && containsT w (outcomePart content)).length
    else 0
  let t7 :=
    if hasDealContext content && hasOutcomeMarker content then
      6 * ((queryTokens q).filter fun w =>
        containsT w surface && containsT w (outcomePart content)).length
    else 0
  let t8 :=
    (comboRules.map fun rule =>
      if rule.1.all (fun p => containsT p surface) then rule.2 else 0).sum
  t2 + t3 + t4 + t5 + t6 + t7 + t8

/-- A `ScoredCandidate`: chunk, recomputed score, original retrieval rank. -/
structure Scored where
  chunk : Document
  score : Nat
  original_rank : Nat
  deriving DecidableEq, Repr

/-- Score the candidates in order, numbering original ranks from `i`. -/
def scoredFrom (q : Txt) (i : Nat) : List Document → List Scored
  | [] => []
  | c :: rest => ⟨c, tierScore q c.content, i⟩ :: scoredFrom q (i + 1) rest

/-- The scored candidate list in original retrieval order. -/
def scoredOf (q : Txt) (cands : List Document) : List Scored :=
  scoredFrom q 0 cands

/-- The re-ranking order, non-strictly: higher score first, equal scores by
ascending original rank. -/
def scoredLe (a b : Scored) : Prop :=
  b.score < a.score ∨ (a.score = b.score ∧ a.original_rank ≤ b.original_rank)

instance : DecidableRel scoredLe := fun a b =>
  inferInstanceAs (Decidable (_ ∨ _ ∧ _))

instance : IsTotal Scored scoredLe := by
  constructor
  intro a b
  unfold scoredLe
  omega

instance : IsTrans Scored scoredLe := by
  constructor
  intro a b c hab hbc
  unfold scoredLe at hab hbc ⊢
  omega

/-- The re-ranking order, strictly: `a` is ranked ahead of `b` when its
score is higher, or scores tie and `a` was seen earlier. -/
def rankedBefore (a b : Scored) : Prop :=
  b.score < a.score ∨ (a.score = b.score ∧ a.original_rank < b.original_rank)

instance : IsAntisymm Scored rankedBefore := by
  constructor
  intro a b hab hba
  unfold rankedBefore at hab hba
  omega

/-- Modelled from the spec: `rerank(query, candidates)` — score every
candidate and sort by descending score, ties by ascending original rank. -/
def rerank (q : Txt) (cands : List Document) : List Scored :=
  (scoredOf q cands).insertionSort scoredLe

/-! ## Claim theorems -/

theorem scoredFrom_map_chunk (q : Txt) (i : Nat) (cs : List Document) :
    ((scoredFrom q i cs).map fun s => s.chunk) = cs := by
  induction cs generalizing i with
  | nil => rfl
  | cons c rest ih => simp [scoredFrom, ih]

theorem scoredFrom_map_rank (q : Txt) (i : Nat) (cs : List Document) :
    ((scoredFrom q i cs).map fun s => s.original_rank) = List.range' i cs.length := by
  induction cs generalizing i with
  | nil => rfl
  | cons c rest ih => simp [scoredFrom, List.range', ih]

/-- C1: re-ranking returns the full candidate list (a permutation of the
scored candidates, whose chunks are exactly the input candidates), ordered
by descending tiered relevance score with equal scores by ascending original
candidate-list position; any list so ordered and carrying the same scored
candidates is equal to it, so the output order is uniquely determined by the
`(query, candidates)` pair — feeding the same pair twice yields the same
order. -/
theorem rerank_orders_candidates (q : Txt) (cands : List Document) :
    (rerank q cands).Perm (scoredOf q cands) ∧
    ((rerank q cands).map fun s => s.chunk).Perm cands ∧
    (rerank q cands).Pairwise rankedBefore ∧
    ∀ l : List Scored, l.Perm (scoredOf q cands) → l.Pairwise rankedBefore →
      l = rerank q cands := by
  have hperm : (rerank q cands).Perm (scoredOf q cands) :=
    List.perm_insertionSort _ _
  have hsorted : List.Pairwise scoredLe (rerank q cands) :=
    List.sorted_insertionSort scoredLe _
  have hranks : ((rerank q cands).map fun s => s.original_rank).Nodup := by
    have hn : ((scoredOf q cands).map fun s => s.original_rank).Nodup := by
      rw [scoredOf, scoredFrom_map_rank]
      exact List.nodup_range' _ _ 1 Nat.one_pos
    exact ((hperm.map fun s => s.original_rank).symm).nodup hn
  have hpair : (rerank q cands).Pairwise rankedBefore := by
    have hne : (rerank q cands).Pairwise
        fun a b => a.original_rank ≠ b.original_rank :=
      List.pairwise_map.mp hranks
    refine (List.Pairwise.and hsorted hne).imp ?_
    intro a b hab
    obtain ⟨hle, hneq⟩ := hab
    unfold scoredLe at hle
    unfold rankedBefore
    omega
  refine ⟨hperm, ?_, hpair, ?_⟩
  · have hc := hperm.map fun s => s.chunk
    rw [scoredOf, scoredFrom_map_chunk] at hc
    exact hc
  · intro l hl hlp
    exact List.eq_of_perm_of_sorted (hl.trans hperm.symm) hlp hpair

/-- Witness for C1 at a concrete query and candidate list: the scored
candidate list of a singleton input is already in ranked order, so the
uniqueness clause applies to it. -/
theorem rerank_orders_candidates_witness :
    scoredOf ("price cpi".data)
        [⟨("deal context: cpi price outcome: ok".data), ("s".data), 0, none, none⟩] =
      rerank ("price cpi".data)
        [⟨("deal context: cpi price outcome: ok".data), ("s".data), 0, none, none⟩] :=
  (rerank_orders_candidates ("price cpi".data)
      [⟨("deal context: cpi price outcome: ok".data), ("s".data), 0, none, none⟩]).2.2.2
    _ (List.Perm.refl _) (List.pairwise_singleton _ _)

theorem lookupA_append_self {β : Type} (d : List (Txt × β)) (k : Txt) (v : β)
    (h : lookupA k d = none) : lookupA k (d ++ [(k, v)]) = some v := by
  induction d with
  | nil => simp [lookupA]
  | cons p rest ih =>
    rw [List.cons_append]
    rw [lookupA] at h ⊢
    split at h
    · cases h
    next hne =>
      rw [if_neg hne]
      exact ih h

/-- C5: registration from a document is idempotent — a second
`register_conversation_from_document` call with the same conversation id is
a silent no-op on the whole router state, whatever the second sample says. -/
theorem register_idempotent (st : RouterState) (cid sA sB : Txt) :
    register_conversation_from_document
        (register_conversation_from_document st cid sA) cid sB =
      register_conversation_from_document st cid sA := by
  cases hl : lookupA cid st.detected with
  | some v =>
    have h1 : register_conversation_from_document st cid sA = st := by
      unfold register_conversation_from_document
      rw [hl]
      rfl
    rw [h1]
    unfold register_conversation_from_document
    rw [hl]
    rfl
  | none =>
    have hkey :
        lookupA cid (register_conversation_from_document st cid sA).detected =
          some ⟨cid, convName cid (extract_conditions (sA.take 1000)),
            extract_conditions (sA.take 1000),
            extractKeywordsFreq (sA.take 500)⟩ := by
      unfold register_conversation_from_document
      rw [hl]
      simp only [Option.isSome_none, Bool.false_eq_true, if_false]
      rw [dictInsertA, hl]
      simp only [Option.isSome_none, Bool.false_eq_true, if_false]
      exact lookupA_append_self _ _ _ hl
    conv_lhs => rw [register_conversation_from_document]
    rw [hkey]
    rfl

/-- C8: against a non-empty catalog with augmented routing active, a failed
LLM call, or a response naming an id absent from the catalog, makes
`route_query` return exactly `keywordRoute`'s answer (the failure never
escapes), while a well-formed `none` response clears the filter. -/
theorem route_ai_fallback (st : RouterState) (resp : Option Txt) (q : Txt)
    (hne : ¬st.conversations.isEmpty) :
    (resp = none →
      route_query st true true resp q = keywordRoute st.conversations q) ∧
    (∀ content, resp = some content →
      lowerT (trimT content) ≠ ("none".data) →
      (∀ c ∈ st.conversations, c.id ≠ lowerT (trimT content)) →
      route_query st true true resp q = keywordRoute st.conversations q) ∧
    (∀ content, resp = some content →
      lowerT (trimT content) = ("none".data) →
      route_query st true true resp q = none) := by
  refine ⟨?_, ?_, ?_⟩
  · intro hr
    subst hr
    unfold route_query aiRoute
    rw [if_neg (by simpa using hne)]
    rfl
  · intro content hr hnone habsent
    subst hr
    unfold route_query aiRoute
    rw [if_neg (by simpa using hne)]
    simp only [Bool.and_self, if_true]
    rw [if_neg hnone, if_neg ?_]
    intro hany
    rw [List.any_eq_true] at hany
    obtain ⟨c, hc, hceq⟩ := hany
    exact habsent c hc (by simpa using hceq)
  · intro content hr hnone
    subst hr
    unfold route_query aiRoute
    rw [if_neg (by simpa using hne)]
    simp only [Bool.and_self, if_true]
    rw [if_pos hnone]

/-- Witness for C8 at a concrete catalog, query and failing/odd responses. -/
theorem route_ai_fallback_witness :
    (route_query ⟨[⟨("1".data), ("Conversation 1".data), emptyConditions,
          [("price".data)]⟩], []⟩ true true none ("price?".data) =
        keywordRoute [⟨("1".data), ("Conversation 1".data), emptyConditions,
          [("price".data)]⟩] ("price?".data)) ∧
    (route_query ⟨[⟨("1".data), ("Conversation 1".data), emptyConditions,
          [("price".data)]⟩], []⟩ true true (some ("7".data)) ("price?".data) =
        keywordRoute [⟨("1".data), ("Conversation 1".data), emptyConditions,
          [("price".data)]⟩] ("price?".data)) ∧
    (route_query ⟨[⟨("1".data), ("Conversation 1".data), emptyConditions,
          [("price".data)]⟩], []⟩ true true (some (" None ".data)) ("price?".data) =
        none) := by
  refine ⟨?_, ?_, ?_⟩
  · exact (route_ai_fallback _ none _ (by decide)).1 rfl
  · exact (route_ai_fallback _ (some ("7".data)) _ (by decide)).2.1 _ rfl
      (by decide) (by decide)
  · exact (route_ai_fallback _ (some (" None ".data)) _ (by decide)).2.2 _ rfl
      (by decide)

/-- C6 (evaluating the code at the failing input): because the second
`_extract_keywords` definition shadows the curated-vocabulary one,
`register_conversation_from_document` stores frequency-ranked keywords — for
the sample `"hello hello hello discovery"` the non-vocabulary word `hello`
leads the list — whereas the curated mode the spec prescribes yields
`[discovery]` alone. -/
theorem register_keywords_not_curated :
    ((register_conversation_from_document ⟨[], []⟩ ("9".data)
        ("hello hello hello discovery".data)).conversations.map
          fun c => c.keywords) =
      [[("hello".data), ("discovery".data)]] ∧
    extractKeywordsCurated (("hello hello hello discovery".data).take 500) =
      [("discovery".data)] ∧
    ([[("hello".data), ("discovery".data)]] : List (List Txt)) ≠
      [[("discovery".data)]] := by
  refine ⟨by decide, by decide, by decide⟩

theorem lookupA_append_none {β : Type} {k : Txt} {d1 : List (Txt × β)}
    (d2 : List (Txt × β)) (h1 : lookupA k d1 = none) :
    lookupA k (d1 ++ d2) = lookupA k d2 := by
  induction d1 with
  | nil => rfl
  | cons p rest ih =>
    rw [lookupA] at h1
    split at h1
    · cases h1
    next hne =>
      rw [List.cons_append, lookupA, if_neg hne]
      exact ih h1

/-- The `scores` dict built by `_keyword_route` is, for a duplicate-free
catalog, just the positive-scoring descriptors in catalog order. -/
theorem buildScoresAux_filterMap (q : Txt) :
    ∀ (convs : List Conv) (acc : List (Txt × Nat)),
      (∀ c ∈ convs, lookupA c.id acc = none) →
      ((convs.map fun c => c.id).Nodup) →
      buildScoresAux q acc convs =
        acc ++ convs.filterMap fun c =>
          if 0 < scoreOf q c then some (c.id, scoreOf q c) else none := by
  intro convs
  induction convs with
  | nil => intro acc _ _; simp [buildScoresAux]
  | cons c rest ih =>
    intro acc hdisj hnodup
    rw [List.map_cons, List.nodup_cons] at hnodup
    rw [buildScoresAux]
    by_cases hpos : 0 < scoreOf q c
    · rw [if_pos hpos]
      have hlook : lookupA c.id acc = none := hdisj c (List.mem_cons_self _ _)
      rw [dictInsertA, hlook]
      simp only [Option.isSome_none, Bool.false_eq_true, if_false]
      rw [ih (acc ++ [(c.id, scoreOf q c)]) ?_ hnodup.2]
      · simp only [List.filterMap_cons, if_pos hpos, List.append_assoc,
          List.singleton_append]
      · intro c2 hc2
        rw [lookupA_append_none _ (hdisj c2 (List.mem_cons_of_mem _ hc2))]
        rw [lookupA, if_neg, lookupA]
        intro heq
        exact hnodup.1 (heq ▸ List.mem_map_of_mem (fun x => x.id) hc2)
    · rw [if_neg hpos]
      rw [ih acc (fun c2 h => hdisj c2 (List.mem_cons_of_mem _ h)) hnodup.2]
      simp only [List.filterMap_cons, if_neg hpos]

theorem maxKeyFirst_eq_none {d : List (Txt × Nat)} :
    maxKeyFirst d = none ↔ d = [] := by
  cases d with
  | nil => simp [maxKeyFirst]
  | cons a rest =>
    simp only [maxKeyFirst]
    cases maxKeyFirst rest with
    | none => simp
    | some q2 =>
      by_cases h : a.2 < q2.2
      · simp [h]
      · simp [h]

/-- Python `max` over the scores dict picks the first entry of maximal
value: everything before it is strictly smaller, everything after at most
equal. -/
theorem maxKeyFirst_spec :
    ∀ (d : List (Txt × Nat)) (p : Txt × Nat),
      maxKeyFirst d = some p →
      ∃ l1 l2, d = l1 ++ p :: l2 ∧ (∀ x ∈ l1, x.2 < p.2) ∧
        ∀ x ∈ l2, x.2 ≤ p.2 := by
  intro d
  induction d with
  | nil => intro p h; cases h
  | cons a rest ih =>
    intro p h
    rw [maxKeyFirst] at h
    cases hm : maxKeyFirst rest with
    | none =>
      rw [hm] at h
      simp only at h
      cases h
      rw [maxKeyFirst_eq_none.mp hm]
      exact ⟨[], [], rfl, by simp, by simp⟩
    | some q2 =>
      rw [hm] at h
      simp only at h
      obtain ⟨r1, r2, hre, hlt, hle⟩ := ih q2 hm
      by_cases hcmp : a.2 < q2.2
      · rw [if_pos hcmp] at h
        cases h
        refine ⟨a :: r1, r2, by rw [hre, List.cons_append], ?_, hle⟩
        intro x hx
        rcases List.mem_cons.mp hx with h1 | h2
        · subst h1; exact hcmp
        · exact hlt x h2
      · rw [if_neg hcmp] at h
        cases h
        refine ⟨[], rest, rfl, by simp, ?_⟩
        intro x hx
        rw [hre] at hx
        rcases List.mem_append.mp hx with h1 | h2
        · exact le_of_lt (lt_of_lt_of_le (hlt x h1) (le_of_not_lt hcmp))
        · rcases List.mem_cons.mp h2 with h3 | h4
          · subst h3; exact le_of_not_lt hcmp
          · exact le_trans (hle x h4) (le_of_not_lt hcmp)

theorem filterMap_eq_append_cons {α β : Type} (f : α → Option β) :
    ∀ (l : List α) (s1 : List β) (x : β) (s2 : List β),
      l.filterMap f = s1 ++ x :: s2 →
      ∃ l1 a l2, l = l1 ++ a :: l2 ∧ f a = some x ∧
        l1.filterMap f = s1 ∧ l2.filterMap f = s2 := by
  intro l
  induction l with
  | nil => intro s1 x s2 h; simp at h
  | cons a rest ih =>
    intro s1 x s2 h
    rw [List.filterMap_cons] at h
    cases hf : f a with
    | none =>
      rw [hf] at h
      obtain ⟨l1, b, l2, hre, hfb, h1, h2⟩ := ih s1 x s2 h
      exact ⟨a :: l1, b, l2, by rw [hre, List.cons_append], hfb,
        by rw [List.filterMap_cons, hf, h1], h2⟩
    | some y =>
      rw [hf] at h
      cases s1 with
      | nil =>
        rw [List.nil_append] at h
        injection h with h1 h2
        exact ⟨[], a, rest, rfl, by rw [hf, h1], rfl, h2⟩
      | cons s1h s1t =>
        rw [List.cons_append] at h
        injection h with h1 h2
        obtain ⟨l1, b, l2, hre, hfb, hh1, hh2⟩ := ih s1t x s2 h2
        exact ⟨a :: l1, b, l2, by rw [hre, List.cons_append], hfb,
          by rw [List.filterMap_cons, hf, hh1, h1], hh2⟩

/-- C7: for a duplicate-free catalog, keyword routing returns no filter
exactly when every descriptor scores zero against the query (in particular
for an empty catalog), and otherwise returns the id of a positive-scoring
descriptor that strictly beats every earlier descriptor and is at least
matched by every later one — the strictly highest score, first one winning
ties. -/
theorem keywordRoute_spec (convs : List Conv) (q : Txt)
    (hnd : (convs.map fun c => c.id).Nodup) :
    (keywordRoute convs q = none ↔ ∀ c ∈ convs, scoreOf q c = 0) ∧
    keywordRoute [] q = none ∧
    ∀ k, keywordRoute convs q = some k →
      ∃ l1 c l2, convs = l1 ++ c :: l2 ∧ c.id = k ∧ 0 < scoreOf q c ∧
        (∀ c2 ∈ l1, scoreOf q c2 < scoreOf q c) ∧
        ∀ c2 ∈ l2, scoreOf q c2 ≤ scoreOf q c := by
  have hscores : buildScoresAux q [] convs =
      convs.filterMap fun c =>
        if 0 < scoreOf q c then some (c.id, scoreOf q c) else none := by
    rw [buildScoresAux_filterMap q convs [] (fun c _ => rfl) hnd,
      List.nil_append]
  refine ⟨?_, rfl, ?_⟩
  · rw [keywordRoute, hscores, Option.map_eq_none', maxKeyFirst_eq_none,
      List.filterMap_eq_nil_iff]
    constructor
    · intro h c hc
      have := h c hc
      split at this
      · cases this
      next hns => omega
    · intro h c hc
      rw [if_neg (by rw [h c hc]; omega)]
  · intro k hk
    rw [keywordRoute, hscores] at hk
    rw [Option.map_eq_some'] at hk
    obtain ⟨p, hp, hpk⟩ := hk
    obtain ⟨s1, s2, hsplit, hlt, hle⟩ := maxKeyFirst_spec _ p hp
    obtain ⟨l1, c, l2, hconv, hfc, hfl1, hfl2⟩ :=
      filterMap_eq_append_cons _ convs s1 p s2 hsplit
    have hcpos : 0 < scoreOf q c := by
      by_contra hneg
      rw [if_neg hneg] at hfc
      cases hfc
    rw [if_pos hcpos] at hfc
    injection hfc with hfc
    refine ⟨l1, c, l2, hconv, by rw [← hpk, ← hfc], hcpos, ?_, ?_⟩
    · intro c2 hc2
      by_cases h2 : 0 < scoreOf q c2
      · have hmem : (c2.id, scoreOf q c2) ∈ s1 := by
          rw [← hfl1]
          exact List.mem_filterMap.mpr ⟨c2, hc2, by rw [if_pos h2]⟩
        have := hlt _ hmem
        rw [← hfc] at this
        exact this
      · omega
    · intro c2 hc2
      by_cases h2 : 0 < scoreOf q c2
      · have hmem : (c2.id, scoreOf q c2) ∈ s2 := by
          rw [← hfl2]
          exact List.mem_filterMap.mpr ⟨c2, hc2, by rw [if_pos h2]⟩
        have := hle _ hmem
        rw [← hfc] at this
        exact this
      · omega

/-- Witness for C7 at a concrete catalog: query `beta` ties descriptors `2`
and `3` at score 1, and the earlier one wins. -/
theorem keywordRoute_spec_witness :
    keywordRoute
        [⟨("1".data), ("c1".data), emptyConditions, [("alpha".data)]⟩,
         ⟨("2".data), ("c2".data), emptyConditions, [("beta".data)]⟩,
         ⟨("3".data), ("c3".data), emptyConditions, [("beta".data)]⟩]
        ("beta".data) = some ("2".data) ∧
    ∃ l1 c l2,
      ([⟨("1".data), ("c1".data), emptyConditions, [("alpha".data)]⟩,
        ⟨("2".data), ("c2".data), emptyConditions, [("beta".data)]⟩,
        ⟨("3".data), ("c3".data), emptyConditions, [("beta".data)]⟩] :
          List Conv) = l1 ++ c :: l2 ∧ c.id = ("2".data) ∧
        0 < scoreOf ("beta".data) c ∧
        (∀ c2 ∈ l1, scoreOf ("beta".data) c2 < scoreOf ("beta".data) c) ∧
        ∀ c2 ∈ l2, scoreOf ("beta".data) c2 ≤ scoreOf ("beta".data) c :=
  ⟨by decide,
    (keywordRoute_spec _ ("beta".data) (by decide)).2.2 ("2".data) (by decide)⟩

theorem dedupFirstAux_mem :
    ∀ (l seen : List Txt) (x : Txt),
      x ∈ dedupFirstAux seen l ↔ x ∈ l ∧ x ∉ seen := by
  intro l
  induction l with
  | nil => intro seen x; simp [dedupFirstAux]
  | cons w r ih =>
    intro seen x
    rw [dedupFirstAux]
    by_cases hw : w ∈ seen
    · rw [if_pos hw, ih]
      constructor
      · rintro ⟨h1, h2⟩
        exact ⟨List.mem_cons_of_mem _ h1, h2⟩
      · rintro ⟨h1, h2⟩
        rcases List.mem_cons.mp h1 with h3 | h3
        · subst h3; exact absurd hw h2
        · exact ⟨h3, h2⟩
    · rw [if_neg hw]
      constructor
      · intro hm
        rcases List.mem_cons.mp hm with h3 | h3
        · subst h3; exact ⟨List.mem_cons_self _ _, hw⟩
        · rw [ih] at h3
          exact ⟨List.mem_cons_of_mem _ h3.1,
            fun hx => h3.2 (List.mem_cons_of_mem _ hx)⟩
      · rintro ⟨h1, h2⟩
        by_cases hxw : x = w
        · subst hxw; exact List.mem_cons_self _ _
        · rcases List.mem_cons.mp h1 with h3 | h3
          · exact absurd h3 hxw
          · refine List.mem_cons_of_mem _ ?_
            rw [ih]
            exact ⟨h3, fun hx => (List.mem_cons.mp hx).elim hxw h2⟩

theorem dedupFirstAux_nodup : ∀ (l seen : List Txt),
    (dedupFirstAux seen l).Nodup := by
  intro l
  induction l with
  | nil => intro seen; exact List.nodup_nil
  | cons w r ih =>
    intro seen
    rw [dedupFirstAux]
    split
    · exact ih seen
    · rw [List.nodup_cons]
      refine ⟨fun hmem => ?_, ih _⟩
      rw [dedupFirstAux_mem] at hmem
      exact hmem.2 (List.mem_cons_self _ _)

theorem dedupFirst_mem (l : List Txt) (x : Txt) :
    x ∈ dedupFirst l ↔ x ∈ l := by
  rw [dedupFirst, dedupFirstAux_mem]
  simp

theorem dedupFirst_nodup (l : List Txt) : (dedupFirst l).Nodup :=
  dedupFirstAux_nodup l []

/-- With at least one detected id, the catalog ids after auto-detection are
exactly the stably sorted distinct detected ids. -/
theorem autoDetect_ids (st : RouterState) (docs : List InDoc)
    (hne : (detectedIds docs).isEmpty = false) :
    ((auto_detect_from_documents st docs).conversations.map fun c => c.id) =
      (detectedIds docs).insertionSort idKeyLe := by
  unfold auto_detect_from_documents
  rw [if_neg (by rw [hne]; simp)]
  rw [List.map_map]
  have : ((fun c => c.id) ∘ mkDetectedConv docs) = fun i => i := rfl
  rw [this, List.map_id']

theorem autoDetect_nodup (st : RouterState) (docs : List InDoc)
    (h : (st.conversations.map fun c => c.id).Nodup) :
    (((auto_detect_from_documents st docs).conversations.map
      fun c => c.id)).Nodup := by
  cases hne : (detectedIds docs).isEmpty with
  | true =>
    unfold auto_detect_from_documents
    rw [if_pos (by rw [hne])]
    exact h
  | false =>
    rw [autoDetect_ids st docs hne]
    exact ((List.perm_insertionSort idKeyLe (detectedIds docs)).symm).nodup
      (dedupFirst_nodup _)

/-- C9: with at least one truthy `conversation_id` among the documents,
auto-detection replaces the catalog wholesale (the result does not depend on
the previous catalog) with exactly one descriptor per distinct detected id,
ordered ascending by the key `int(id) if id.isdigit() else 0` — so every id
that is not a plain digit string carries key 0 and sorts first. -/
theorem autoDetect_spec (st : RouterState) (docs : List InDoc)
    (h : ∃ d ∈ docs, docConvId d ≠ none) :
    (((auto_detect_from_documents st docs).conversations.map
        fun c => c.id)).Nodup ∧
    (∀ i, i ∈ ((auto_detect_from_documents st docs).conversations.map
        fun c => c.id) ↔ i ∈ docs.filterMap docConvId) ∧
    (((auto_detect_from_documents st docs).conversations.map
        fun c => c.id)).Pairwise idKeyLe ∧
    (∀ t : Txt, isDigitStr t = false → sortKeyId t = 0) ∧
    ∀ st2 : RouterState,
      (auto_detect_from_documents st2 docs).conversations =
        (auto_detect_from_documents st docs).conversations := by
  have hne : (detectedIds docs).isEmpty = false := by
    obtain ⟨d, hd, hid⟩ := h
    cases hcid : docConvId d with
    | none => exact absurd hcid hid
    | some i =>
      have : i ∈ detectedIds docs := by
        rw [detectedIds, dedupFirst_mem]
        exact List.mem_filterMap.mpr ⟨d, hd, hcid⟩
      cases hdet : detectedIds docs with
      | nil => rw [hdet] at this; cases this
      | cons a r => rfl
  refine ⟨?_, ?_, ?_, ?_, ?_⟩
  · rw [autoDetect_ids st docs hne]
    exact ((List.perm_insertionSort idKeyLe _).symm).nodup (dedupFirst_nodup _)
  · intro i
    rw [autoDetect_ids st docs hne,
      (List.perm_insertionSort idKeyLe _).mem_iff, detectedIds, dedupFirst_mem]
  · rw [autoDetect_ids st docs hne]
    exact List.sorted_insertionSort idKeyLe _
  · intro t ht
    rw [sortKeyId, if_neg (by rw [ht]; simp)]
  · intro st2
    unfold auto_detect_from_documents
    rw [if_neg (by rw [hne]; simp), if_neg (by rw [hne]; simp)]

/-- Witness for C9: ids `2`, `2.1`, `1` across three documents (one of them
a duplicate) sort to `2.1, 1, 2` — the dotted id is not a digit string, takes
key 0 and comes first — independently of a non-trivial prior catalog. -/
theorem autoDetect_spec_witness :
    (((auto_detect_from_documents ⟨[], []⟩
        [⟨some ("2".data), ("price talk".data)⟩,
         ⟨some ("2.1".data), ("sub case".data)⟩,
         ⟨some ("1".data), ("first".data)⟩,
         ⟨some ("2".data), ("more price".data)⟩]).conversations.map
          fun c => c.id)).Pairwise idKeyLe ∧
    ∀ i, i ∈ ((auto_detect_from_documents ⟨[], []⟩
        [⟨some ("2".data), ("price talk".data)⟩,
         ⟨some ("2.1".data), ("sub case".data)⟩,
         ⟨some ("1".data), ("first".data)⟩,
         ⟨some ("2".data), ("more price".data)⟩]).conversations.map
          fun c => c.id) ↔
      i ∈ ([⟨some ("2".data), ("price talk".data)⟩,
         ⟨some ("2.1".data), ("sub case".data)⟩,
         ⟨some ("1".data), ("first".data)⟩,
         ⟨some ("2".data), ("more price".data)⟩] : List InDoc).filterMap
          docConvId := by
  have h := autoDetect_spec ⟨[], []⟩
    [⟨some ("2".data), ("price talk".data)⟩,
     ⟨some ("2.1".data), ("sub case".data)⟩,
     ⟨some ("1".data), ("first".data)⟩,
     ⟨some ("2".data), ("more price".data)⟩]
    ⟨⟨some ("1".data), ("first".data)⟩, by decide, by decide⟩
  exact ⟨h.2.2.1, h.2.1⟩

theorem register_preserves_nodup (st : RouterState) (cid sample : Txt)
    (h : (st.conversations.map fun c => c.id).Nodup) :
    (((register_conversation_from_document st cid sample).conversations.map
      fun c => c.id)).Nodup := by
  unfold register_conversation_from_document
  split
  · exact h
  · simp only
    split
    · exact h
    next hany =>
      rw [List.map_append, List.map_cons, List.map_nil]
      refine List.nodup_append.mpr ⟨h, List.nodup_singleton _, ?_⟩
      intro x hx hx2
      rw [List.mem_singleton] at hx2
      subst hx2
      apply hany
      rw [List.any_eq_true]
      obtain ⟨c, hc, hcid⟩ := List.mem_map.mp hx
      exact ⟨c, hc, by simp [hcid]⟩

/-- A catalog-mutating call: document-driven registration or wholesale
auto-detection. -/
inductive CatalogOp where
  | reg (cid sample : Txt)
  | auto (docs : List InDoc)

/-- Execute one catalog-mutating call. -/
def applyOp (st : RouterState) : CatalogOp → RouterState
  | .reg cid sample => register_conversation_from_document st cid sample
  | .auto docs => auto_detect_from_documents st docs

/-- C10: from a catalog whose conversation list has pairwise-distinct ids,
any sequence of `register_conversation_from_document` and
`auto_detect_from_documents` calls keeps at most one descriptor per id —
registration appends only absent ids, auto-detection rebuilds from a
distinct-id set. -/
theorem catalog_ids_nodup_invariant (ops : List CatalogOp) (st : RouterState)
    (h : (st.conversations.map fun c => c.id).Nodup) :
    (((ops.foldl applyOp st).conversations.map fun c => c.id)).Nodup := by
  induction ops generalizing st with
  | nil => exact h
  | cons op rest ih =>
    rw [List.foldl_cons]
    apply ih
    cases op with
    | reg cid sample => exact register_preserves_nodup st cid sample h
    | auto docs => exact autoDetect_nodup st docs h

/-- Witness for C10: a concrete register / auto-detect / register sequence
from a two-entry catalog keeps the ids distinct. -/
theorem catalog_ids_nodup_invariant_witness :
    ((([CatalogOp.reg ("2".data) ("price price demo".data),
        CatalogOp.auto [⟨some ("7".data), ("renewal stuff".data)⟩,
          ⟨some ("2.1".data), ("sub".data)⟩],
        CatalogOp.reg ("7".data) ("again".data)].foldl applyOp
        ⟨[⟨("1".data), ("c1".data), emptyConditions, []⟩,
          ⟨("2".data), ("c2".data), emptyConditions, []⟩], []⟩).conversations.map
          fun c => c.id)).Nodup :=
  catalog_ids_nodup_invariant _ _ (by decide)

/-- C4 counterexample: on `"Stage:\nDiscovery, Final"` the code's `\s*`
after the colon crosses the line break, so `extract_conditions` reads the
stage values off the next line — while the claim's "label line" reading
(first "Stage:" label line, comma-split trimmed remainder) yields a single
empty element. -/
theorem extract_conditions_stage_crosses_lines :
    (extract_conditions ("Stage:\nDiscovery, Final".data)).stage =
      some [("Discovery".data), ("Final".data)] ∧
    stageFromLabelLine ("Stage:\nDiscovery, Final".data) = some [([] : Txt)] ∧
    some [("Discovery".data), ("Final".data)] ≠ some [([] : Txt)] := by
  refine ⟨by decide, by decide, by decide⟩

theorem searchWith_eq_none (m : Txt → Option Txt) :
    ∀ t : Txt, (∀ q, q <:+ t → m q = none) → searchWith m t = none := by
  intro t
  induction t with
  | nil => intro h; exact h [] (List.suffix_refl _)
  | cons c r ih =>
    intro h
    rw [searchWith, h (c :: r) (List.suffix_refl _)]
    exact ih fun q hq => h q (hq.trans (List.suffix_cons c r))

theorem searchWith_append (m : Txt → Option Txt) :
    ∀ (p u v : Txt),
      (∀ p2, p2 ≠ [] → p2 <:+ p → m (p2 ++ u) = none) →
      m u = some v → searchWith m (p ++ u) = some v := by
  intro p
  induction p with
  | nil =>
    intro u v _ hmu
    rw [List.nil_append]
    cases u with
    | nil => exact hmu
    | cons c r => rw [searchWith, hmu]
  | cons c p2 ih =>
    intro u v hnone hmu
    have h0 := hnone (c :: p2) (by simp) (List.suffix_refl _)
    rw [List.cons_append] at h0
    rw [List.cons_append, searchWith, h0]
    exact ih u v
      (fun p3 h3 hs => hnone p3 h3 (hs.trans (List.suffix_cons c p2))) hmu

/-- C4 (amended): each field of `extract_conditions` is governed by the
leftmost match of its whitespace-tolerant label pattern, whose captured
value may begin on a later line (the pattern's `\s*` crosses newlines):
stage is the comma-split element-wise trimmed capture of the first stage
match, deal_size/type the trimmed captures, a field with no match anywhere
is omitted, and with no match for any label the result is the empty
conditions object (the function is total, hence never raises). -/
theorem extract_conditions_spec (t : Txt) :
    ((∀ q, q <:+ t → matchStageAt q = none) →
      (extract_conditions t).stage = none) ∧
    (∀ p u v, t = p ++ u → matchStageAt u = some v →
      (∀ p2, p2 ≠ [] → p2 <:+ p → matchStageAt (p2 ++ u) = none) →
      (extract_conditions t).stage =
        some ((splitOnChar ',' v).map trimT)) ∧
    ((∀ q, q <:+ t → matchDealAt q = none) →
      (extract_conditions t).deal_size = none) ∧
    (∀ p u v, t = p ++ u → matchDealAt u = some v →
      (∀ p2, p2 ≠ [] → p2 <:+ p → matchDealAt (p2 ++ u) = none) →
      (extract_conditions t).deal_size = some (trimT v)) ∧
    ((∀ q, q <:+ t → matchTypeAt q = none) →
      (extract_conditions t).type = none) ∧
    ((∀ q, q <:+ t → matchStageAt q = none) →
      (∀ q, q <:+ t → matchDealAt q = none) →
      (∀ q, q <:+ t → matchTypeAt q = none) →
      extract_conditions t = emptyConditions) := by
  refine ⟨?_, ?_, ?_, ?_, ?_, ?_⟩
  · intro h
    show (searchWith matchStageAt t).map _ = none
    rw [searchWith_eq_none _ t h]
    rfl
  · intro p u v ht hm hnone
    subst ht
    show (searchWith matchStageAt (p ++ u)).map _ = _
    rw [searchWith_append _ p u v hnone hm]
    rfl
  · intro h
    show (searchWith matchDealAt t).map _ = none
    rw [searchWith_eq_none _ t h]
    rfl
  · intro p u v ht hm hnone
    subst ht
    show (searchWith matchDealAt (p ++ u)).map _ = _
    rw [searchWith_append _ p u v hnone hm]
    rfl
  · intro h
    show (searchWith matchTypeAt t).map _ = none
    rw [searchWith_eq_none _ t h]
    rfl
  · intro h1 h2 h3
    show extract_conditions t = emptyConditions
    unfold extract_conditions emptyConditions
    rw [searchWith_eq_none _ t h1, searchWith_eq_none _ t h2,
      searchWith_eq_none _ t h3]
    rfl

/-- Witness for C4's amended theorem at `"Stage: A,B"`: the stage pattern
matches at position 0 and captures ` A,B`, the deal-size pattern matches
nowhere. -/
theorem extract_conditions_spec_witness :
    (extract_conditions ("Stage: A,B".data)).stage =
      some [("A".data), ("B".data)] ∧
    (extract_conditions ("Stage: A,B".data)).deal_size = none := by
  have halldeal : ∀ q ∈ ("Stage: A,B".data).tails, matchDealAt q = none := by
    decide
  constructor
  · have hst := (extract_conditions_spec ("Stage: A,B".data)).2.1
      [] ("Stage: A,B".data) ("A,B".data) rfl (by decide)
      (by
        intro p2 h2 hs
        rw [List.suffix_nil] at hs
        exact absurd hs h2)
    rw [hst]
    decide
  · exact (extract_conditions_spec ("Stage: A,B".data)).2.2.1
      fun q hq => halldeal q ((List.mem_tails _ _).mpr hq)

theorem numberFrom_cid (src : Txt) (cid hdr : Option Txt) :
    ∀ (l : List Txt) (i : Nat) (d : Document),
      d ∈ numberFrom src cid hdr i l → d.conversation_id = cid := by
  intro l
  induction l with
  | nil => intro i d h; cases h
  | cons c rest ih =>
    intro i d h
    rcases List.mem_cons.mp h with h1 | h2
    · subst h1; rfl
    · exact ih (i + 1) d h2

theorem numberFrom_map_content (src : Txt) (cid hdr : Option Txt) :
    ∀ (l : List Txt) (i : Nat),
      ((numberFrom src cid hdr i l).map fun d => d.content) = l := by
  intro l
  induction l with
  | nil => intro i; rfl
  | cons c rest ih => intro i; simp [numberFrom, ih]

theorem createDocs_ne_nil (content src : Txt) (cid hdr : Option Txt) :
    createDocs content src cid hdr ≠ [] := by
  unfold createDocs
  cases hc : chunkText 1000 200 content with
  | nil => exact absurd hc (chunkText_ne_nil _ _ _)
  | cons c rest => rw [numberFrom]; simp

/-- When the older header pattern matches at no suffix of `s`, the scan
returns the remaining text as a single segment. -/
theorem scanOldF_no_match :
    ∀ (fuel : Nat) (s : Txt) (ls : Bool) (acc : Txt), s.length < fuel →
      (∀ q, q <:+ s → matchConvOld q = none) →
      scanOldF fuel s ls acc = [acc.reverse ++ s] := by
  intro fuel
  induction fuel with
  | zero => intro s ls acc h; omega
  | succ n ih =>
    intro s ls acc hlen hno
    have h1 : (if ls then matchConvOld s else none) = none := by
      cases ls
      · rfl
      · exact hno s (List.suffix_refl _)
    cases s with
    | nil => simp [scanOldF, h1]
    | cons c rest =>
      have h2 : (if c = '\n' then matchConvOld rest else none) = none := by
        split
        · exact hno rest (List.suffix_cons c rest)
        · rfl
      simp only [scanOldF, h1, h2]
      rw [ih rest (c = '\n') (c :: acc) (by simp at hlen ⊢; omega)
        (fun q hq => hno q (hq.trans (List.suffix_cons c rest)))]
      simp

/-- The first segment of the older scan extends the accumulator by a prefix
of the remaining text (so the head of `reSplitOld t` is a prefix of `t`). -/
theorem scanOldF_head_prefix :
    ∀ (fuel : Nat) (s : Txt) (ls : Bool) (acc : Txt),
      ∃ pre rest2, scanOldF fuel s ls acc = (acc.reverse ++ pre) :: rest2 ∧
        pre <+: s := by
  intro fuel
  induction fuel with
  | zero =>
    intro s ls acc
    exact ⟨s, [], rfl, List.prefix_refl _⟩
  | succ n ih =>
    intro s ls acc
    cases hm : (if ls then matchConvOld s else none) with
    | some r =>
      refine ⟨[], r.1 :: scanOldF n r.2 true [], ?_, List.nil_prefix⟩
      simp [scanOldF, hm]
    | none =>
      cases s with
      | nil => exact ⟨[], [], by simp [scanOldF, hm], List.prefix_refl _⟩
      | cons c rest =>
        cases hm2 : (if c = '\n' then matchConvOld rest else none) with
        | some r =>
          refine ⟨[], r.1 :: scanOldF n r.2 true [], ?_, List.nil_prefix⟩
          simp [scanOldF, hm, hm2]
        | none =>
          obtain ⟨pre, rest2, heq, hpre⟩ := ih rest (c = '\n') (c :: acc)
          obtain ⟨tl, htl⟩ := hpre
          refine ⟨c :: pre, rest2, ?_, ⟨tl, by rw [List.cons_append, htl]⟩⟩
          simp only [scanOldF, hm, hm2]
          rw [heq]
          simp

/-- C3 counterexample: the processing splitter emits nothing at all for a
non-blank header-less document, instead of an intro-only segmentation. -/
theorem procSplit_headerless_empty :
    procSplit ("hello world".data) ("doc.pdf".data) = [] ∧
    (trimT ("hello world".data)).isEmpty = false := by
  refine ⟨by decide, by decide⟩

/-- C3 (amended): for the `src/conversation_splitter.py` variant the claim
holds — a non-blank document in which the header pattern matches nowhere is
emitted whole as intro chunks carrying no conversation id, and whenever the
part before the first header is non-blank it is emitted (unstripped) as a
leading block of intro chunks, that part being a prefix of the input.  (The
processing variant instead discards pre-header text, cf. the
counterexample.) -/
theorem oldSplit_intro_spec (t src : Txt) :
    ((∀ q, q <:+ t → matchConvOld q = none) → (trimT t).isEmpty = false →
      oldSplit t src = createDocs t src none none ∧
      oldSplit t src ≠ [] ∧
      ∀ d ∈ oldSplit t src, d.conversation_id = none) ∧
    ((trimT ((reSplitOld t).headD [])).isEmpty = false →
      (∃ rest, oldSplit t src =
        createDocs ((reSplitOld t).headD []) src none none ++ rest) ∧
      createDocs ((reSplitOld t).headD []) src none none ≠ [] ∧
      (∀ d ∈ createDocs ((reSplitOld t).headD []) src none none,
        d.conversation_id = none) ∧
      (reSplitOld t).headD [] <+: t) := by
  constructor
  · intro hno hblank
    have hsplit : reSplitOld t = [t] := by
      rw [reSplitOld, scanOldF_no_match (t.length + 1) t true []
        (by omega) hno]
      rfl
    have hout : oldSplit t src = createDocs t src none none := by
      rw [oldSplit, hsplit]
      show (if (trimT t).isEmpty = true then []
        else createDocs t src none none) ++ oldLoop src [] = _
      rw [if_neg (by rw [hblank]; simp)]
      show createDocs t src none none ++ [] = createDocs t src none none
      exact List.append_nil _
    refine ⟨hout, by rw [hout]; exact createDocs_ne_nil _ _ _ _, ?_⟩
    intro d hd
    rw [hout] at hd
    exact numberFrom_cid _ _ _ _ _ _ hd
  · intro hblank
    obtain ⟨pre, rest2, heq, hpre⟩ :=
      scanOldF_head_prefix (t.length + 1) t true []
    have hhead : (reSplitOld t).headD [] = pre := by
      rw [reSplitOld, heq]
      rfl
    have hdrop : (reSplitOld t).drop 1 = rest2 := by
      rw [reSplitOld, heq]
      rfl
    refine ⟨⟨oldLoop src rest2, ?_⟩, createDocs_ne_nil _ _ _ _, ?_, ?_⟩
    · rw [oldSplit, hdrop, if_neg (by rw [hblank]; simp)]
    · intro d hd
      exact numberFrom_cid _ _ _ _ _ _ hd
    · rw [hhead]
      exact hpre

/-- Witness for C3's amended theorem: a header-less document (both parts of
the theorem applied at it). -/
theorem oldSplit_intro_spec_witness :
    (oldSplit ("no headers".data) ("s".data) =
      createDocs ("no headers".data) ("s".data) none none ∧
     oldSplit ("no headers".data) ("s".data) ≠ [] ∧
     ∀ d ∈ oldSplit ("no headers".data) ("s".data),
       d.conversation_id = none) ∧
    ((reSplitOld ("no headers".data)).headD [] <+: ("no headers".data)) := by
  have hall : ∀ q ∈ (("no headers".data)).tails, matchConvOld q = none := by
    decide
  have hmain := oldSplit_intro_spec ("no headers".data) ("s".data)
  refine ⟨hmain.1 (fun q hq => hall q ((List.mem_tails _ _).mpr hq))
    (by decide), ?_⟩
  exact (hmain.2 (by decide)).2.2.2

/-- C2 counterexample: on `"intro\nConversation 1\nbody"` the processing
splitter emits exactly one chunk with content `"body"`: the non-whitespace
intro region `"intro"` (and the header line) is absent from every chunk, so
the concatenation of the chunks cannot reconstruct the input modulo
whitespace trimming and overlap duplication. -/
theorem procSplit_drops_intro :
    ((procSplit ("intro\nConversation 1\nbody".data) ("s".data)).map
      fun d => d.content) = [("body".data)] ∧
    containsT ("intro".data) ("intro\nConversation 1\nbody".data) = true ∧
    ∀ d ∈ procSplit ("intro\nConversation 1\nbody".data) ("s".data),
      containsT ("intro".data) d.content = false := by
  refine ⟨by decide, by decide, by decide⟩

/-- The (header, id, content) triples that the processing loop walks. -/
def spanTriples : List Txt → List (Txt × Txt × Txt)
  | h :: i :: c :: rest => (h, i, c) :: spanTriples rest
  | _ => []

theorem procLoop_eq_flatMap (src : Txt) :
    ∀ parts : List Txt,
      procLoop src parts = (spanTriples parts).flatMap fun x =>
        if (trimT x.2.2).isEmpty then []
        else createDocs (trimT x.2.2) src (some (trimT x.2.1))
          (some (trimT x.1)) := by
  intro parts
  match parts with
  | [] => rfl
  | [h] => rfl
  | [h, i] => rfl
  | h :: i :: c :: rest =>
    rw [procLoop, spanTriples, List.flatMap_cons,
      procLoop_eq_flatMap src rest]

/-- C2 (amended): the processing splitter's output is exactly the
concatenation, over the (header, id, content) span triples of the header
split, of the chunkings of each span's trimmed content (blank spans
skipped) — so chunk contents cover each conversation span in order, while
the header lines themselves (moved to metadata) and any pre-header text are
excluded — and within each non-blank span the overlap-removal concatenation
of its chunks' contents reconstructs that span's trimmed content exactly. -/
theorem procSplit_span_coverage (t src : Txt) :
    procSplit t src =
      ((spanTriples ((reSplitProc t).drop 1)).flatMap fun x =>
        if (trimT x.2.2).isEmpty then []
        else createDocs (trimT x.2.2) src (some (trimT x.2.1))
          (some (trimT x.1))) ∧
    ∀ x ∈ spanTriples ((reSplitProc t).drop 1),
      (trimT x.2.2).isEmpty = false →
      reconOverlap 800 ((createDocs (trimT x.2.2) src (some (trimT x.2.1))
        (some (trimT x.1))).map fun d => d.content) = trimT x.2.2 := by
  constructor
  · rw [procSplit, procLoop_eq_flatMap]
  · intro x _ _
    rw [createDocs, numberFrom_map_content]
    have h800 : (1000 : Nat) - 200 = 800 := rfl
    rw [← h800]
    exact reconOverlap_chunkText 1000 200 _ (by omega)

/-- Witness for C2's amended theorem at a two-span document. -/
theorem procSplit_span_coverage_witness :
    procSplit ("Conversation 1\nbody one\nConversation 2\nbody two".data)
        ("s".data) =
      ((spanTriples ((reSplitProc
          ("Conversation 1\nbody one\nConversation 2\nbody two".data)).drop
            1)).flatMap fun x =>
        if (trimT x.2.2).isEmpty then []
        else createDocs (trimT x.2.2) ("s".data) (some (trimT x.2.1))
          (some (trimT x.1))) ∧
    reconOverlap 800
        ((createDocs
          (trimT ("body one".data)) ("s".data)
          (some (trimT ("1".data)))
          (some (trimT ("Conversation 1".data)))).map fun d => d.content) =
      trimT ("body one".data) := by
  have h := procSplit_span_coverage
    ("Conversation 1\nbody one\nConversation 2\nbody two".data) ("s".data)
  refine ⟨h.1, ?_⟩
  exact h.2 (("Conversation 1".data), ("1".data), ("body one".data))
    (by decide) (by decide)

end OfferDesk
